import Mathlib

/-!
Shallow embedding of the questionnaire controller of
`src/core/hooks/useQuestionnaire.ts` (react-native-stepform).

React `useState` cells become fields of an explicit state record `QState`;
each handler (`handleNext`, `handleBack`, `handleSkip`, `handleInputChange`,
`validateStep`, `goToStep`, `setFieldDirty`) becomes a pure state transformer.
Externally observable calls (the completion callback, the exit-intent
callback, the logging of a completion fault, the toggling of the submitting
flag) are recorded in an event trace, so properties about "invoked exactly
once" or "toggles true then false" are statements about that trace.

JavaScript objects (`Record<string, T>`) are modelled as association lists
with insertion-order upsert semantics (`{...prev, [k]: v}` keeps the position
of an existing key and appends a fresh one); `Record<string, boolean>` dirty
flags, whose values are only ever `true`, become an insertion-ordered list of
keys.  A zod validator attached to a question is modelled as a function from
the (possibly absent) field value to an optional error message; `z.object`
compilation and `schema.parse` become `buildShape` / `schemaErrors`.
-/

namespace StepForm

/-- Field values (`unknown` in the source); a concrete type keeps everything
decidable for evaluation. -/
abbrev Value := String

/-- `Record<string, unknown>` with JS spread-update semantics. -/
abbrev FormValueMap := List (String × Value)

/-- `Record<number, Record<string, unknown>>`: the per-step history. -/
abbrev StepHistory := List (Nat × FormValueMap)

/-- JS `{...m, [k]: v}`: replace in place when the key exists (JS objects
hold each key once, so replacing the first occurrence is replacing the only
one), else append. -/
def upsert {α β : Type} [DecidableEq α] : List (α × β) → α → β → List (α × β)
  | [], k, v => [(k, v)]
  | p :: t, k, v => if p.1 = k then (k, v) :: t else p :: upsert t k v

/-- JS property read `m[k]`, `none` when the key is absent. -/
def lookup {α β : Type} [DecidableEq α] : List (α × β) → α → Option β
  | [], _ => none
  | p :: t, k => if p.1 = k then some p.2 else lookup t k

/-- Insertion-ordered key-set insert: `{...prev, [name]: true}` on a
`Record<string, boolean>` whose values are always `true`. -/
def addFlag (l : List String) (n : String) : List String :=
  if n ∈ l then l else l ++ [n]

/-- A question's zod validator: from the looked-up value (missing key =
`none`, as `z.object` sees it) to `none` (accept) or `some msg` (the issue
message reported for this field). -/
abbrev Validator := Option Value → Option String

/-- A question (`BaseQuestion` in `src/core/types/question.ts`): only the
fields the controller reads. -/
structure Question where
  name : String
  validation : Option Validator
  skippable : Bool

/-- A step (`QuestionStep`): the controller only reads `questions`. -/
structure Step where
  questions : List Question

/-- The caller-supplied options the controller consults during a transition.
`onCompleted` is modelled by whether it is supplied and whether it raises;
its invocation is recorded as an event. -/
structure Env where
  config : List Step
  onBeforeNext : Option (Nat → FormValueMap → Bool)
  onBeforeBack : Option (Nat → Bool)
  hasOnCompleted : Bool
  completedThrows : Bool
  hasOnExit : Bool

/-- The controller's `useState` cells (animation value omitted: it carries no
decidable state the claims mention). -/
structure QState where
  currentStep : Nat
  formData : FormValueMap
  isForward : Bool
  isSubmittingStep : Bool
  stepHistory : StepHistory
  dirtyFields : List String
  errors : List (String × String)
deriving DecidableEq, Repr

/-- Externally observable actions of a handler call. -/
inductive Event where
  | submittingSet (b : Bool)
  | completedCall (fd : FormValueMap)
  | errorLogged
  | exitCall
deriving DecidableEq, Repr

/-- `config[currentStep]` (the `currentStepData` memo); out-of-range reads,
which would crash the JS, default to an empty step. -/
def currentStepData (e : Env) (s : QState) : Step :=
  e.config.getD s.currentStep ⟨[]⟩

/-- `createValidationSchema`: the zod shape, a name-keyed record collecting
each question's declared validator (reduce with `acc[q.name] = q.validation`;
a duplicate name overwrites in place). -/
def buildShape (qs : List Question) : List (String × Validator) :=
  qs.foldl
    (fun acc q =>
      match q.validation with
      | some v => upsert acc q.name v
      | none => acc)
    []

/-- `schema.parse(formData)` outcome: the list of zod issues, one
`(field, message)` per failing shape entry, in shape order.  `parse` succeeds
iff this list is empty. -/
def schemaErrors (qs : List Question) (fd : FormValueMap) :
    List (String × String) :=
  (buildShape qs).filterMap
    (fun p => (p.2 (lookup fd p.1)).map (fun m => (p.1, m)))

/-- The `error.errors.reduce` in `validateStep`: issues folded into a
name-keyed record. -/
def buildErrorMap (errs : List (String × String)) : List (String × String) :=
  errs.foldl (fun acc p => upsert acc p.1 p.2) []

/-- The `allFieldsDirty` record of `validateStep`: every question name of the
step, keyed in first-occurrence order. -/
def dirtyAll (qs : List Question) : List String :=
  qs.foldl (fun acc q => addFlag acc q.name) []

/-- `validateStep` (source lines 124-159): early-accept when no question has
a validator, otherwise mark every field of the step dirty, parse, and replace
`errors`.  Returns the updated state and the boolean result. -/
def validateStep (e : Env) (s : QState) : QState × Bool :=
  let qs := (currentStepData e s).questions
  if qs.all (fun q => q.validation.isNone) then
    ({ s with errors := [] }, true)
  else
    let s1 := { s with dirtyFields := dirtyAll qs }
    let errs := schemaErrors qs s1.formData
    if errs.isEmpty then
      ({ s1 with errors := [] }, true)
    else
      ({ s1 with errors := buildErrorMap errs }, false)

/-- `isStepValid` (source lines 161-178): pure three-way disjunction, no
state writes. -/
def isStepValid (e : Env) (s : QState) : Bool :=
  let qs := (currentStepData e s).questions
  if qs.all (fun q => q.validation.isNone) then true
  else if qs.all (fun (q : Question) => q.skippable) then true
  else (schemaErrors qs s.formData).isEmpty

/-- The call site of `isStepValid`: a read-only operation on the state. -/
def isStepValidOp (e : Env) (s : QState) : QState × Bool :=
  (s, isStepValid e s)

/-- The `onBeforeNext` gate as the code consults it (with the render-closure
`currentStep` and `formData`); `true` when no gate is supplied. -/
def nextGatePasses (e : Env) (s : QState) : Bool :=
  match e.onBeforeNext with
  | some g => g s.currentStep s.formData
  | none => true

/-- The `onBeforeBack` gate; `true` when no gate is supplied. -/
def backGatePasses (e : Env) (s : QState) : Bool :=
  match e.onBeforeBack with
  | some g => g s.currentStep
  | none => true

/-- The observable trace of the terminal submission block
(`setIsSubmittingStep(true); try await onCompleted?.(formData) catch log
finally setIsSubmittingStep(false)`). -/
def submitEvents (e : Env) (fd : FormValueMap) : List Event :=
  [Event.submittingSet true] ++
    (if e.hasOnCompleted then [Event.completedCall fd] else []) ++
    (if e.hasOnCompleted && e.completedThrows then [Event.errorLogged] else []) ++
    [Event.submittingSet false]

/-- `handleBack` (source lines 180-204). -/
def handleBack (e : Env) (s : QState) : QState × List Event :=
  if 0 < s.currentStep then
    if backGatePasses e s then
      let prev := s.currentStep - 1
      ({ s with
          isForward := false
          currentStep := prev
          formData :=
            match lookup s.stepHistory prev with
            | some h => h
            | none => s.formData }, [])
    else (s, [])
  else
    (s, if e.hasOnExit then [Event.exitCall] else [])

/-- `handleNext` (source lines 206-257): validate (with its state writes),
then the gate, then either the index increment with history restore or, on
the last step, the submission block. -/
def handleNext (e : Env) (s : QState) : QState × List Event :=
  let v := validateStep e s
  if v.2 then
    if nextGatePasses e s then
      let s2 := { v.1 with isForward := true }
      if s.currentStep < e.config.length - 1 then
        let next := s.currentStep + 1
        ({ s2 with
            currentStep := next
            formData :=
              match lookup s.stepHistory next with
              | some h => h
              | none => s2.formData }, [])
      else
        ({ s2 with isSubmittingStep := false }, submitEvents e s.formData)
    else (v.1, [])
  else (v.1, [])

/-- `handleSkip` (source lines 259-302): no validation; gate, then index
increment with a history seed (`{}` when the next step has no entry), or the
submission block on the last step. -/
def handleSkip (e : Env) (s : QState) : QState × List Event :=
  if nextGatePasses e s then
    let s2 := { s with isForward := true }
    if s.currentStep < e.config.length - 1 then
      let next := s.currentStep + 1
      ({ s2 with
          currentStep := next
          stepHistory :=
            match lookup s.stepHistory next with
            | some _ => s.stepHistory
            | none => upsert s.stepHistory next [] }, [])
    else
      ({ s2 with isSubmittingStep := false }, submitEvents e s.formData)
  else (s, [])

/-- `handleInputChange` (source lines 304-322): merge the value, snapshot the
new map into the history at the current index, mark the field dirty.  (The
`isProcessingField` flag is not part of the modelled state.) -/
def handleInputChange (s : QState) (name : String) (val : Value) : QState :=
  let nfd := upsert s.formData name val
  { s with
      formData := nfd
      stepHistory := upsert s.stepHistory s.currentStep nfd
      dirtyFields := addFlag s.dirtyFields name }

/-- The `error.errors.reduce` of the revalidation effect: fold the zod
issues into a name-keyed record, keeping only the dirty fields. -/
def publishDirty (dirty : List String) (errs : List (String × String)) :
    List (String × String) :=
  errs.foldl (fun acc p => if p.1 ∈ dirty then upsert acc p.1 p.2 else acc) []

/-- The dirty-field revalidation `useEffect` (source lines 328-360): no-op
while nothing is dirty; clear errors when the step has no validators or the
schema accepts; otherwise publish only the failing fields that are dirty. -/
def revalidateEffect (e : Env) (s : QState) : QState :=
  if s.dirtyFields.isEmpty then s
  else
    let qs := (currentStepData e s).questions
    if qs.all (fun q => q.validation.isNone) then { s with errors := [] }
    else
      let errs := schemaErrors qs s.formData
      if errs.isEmpty then { s with errors := [] }
      else { s with errors := publishDirty s.dirtyFields errs }

/-- `goToStep` (source lines 401-405): unconditional index set when
`0 <= step && step < config.length`, otherwise nothing. -/
def goToStep (e : Env) (s : QState) (i : Int) : QState :=
  if 0 ≤ i ∧ i < e.config.length then { s with currentStep := i.toNat } else s

/-- `setFieldDirty` (source lines 398-400). -/
def setFieldDirty (s : QState) (n : String) : QState :=
  { s with dirtyFields := addFlag s.dirtyFields n }

/-- The public operations of the controller surface. -/
inductive Op where
  | next
  | back
  | skip
  | validate
  | input (name : String) (val : Value)
  | goto (i : Int)
  | setDirty (name : String)

/-- One public operation followed by the reactive revalidation effect, whose
dependencies (`formData`, `dirtyFields`, the active step's questions) may
have changed. -/
def applyOp (e : Env) (s : QState) : Op → QState
  | .next => revalidateEffect e (handleNext e s).1
  | .back => revalidateEffect e (handleBack e s).1
  | .skip => revalidateEffect e (handleSkip e s).1
  | .validate => revalidateEffect e (validateStep e s).1
  | .input n v => revalidateEffect e (handleInputChange s n v)
  | .goto i => revalidateEffect e (goToStep e s i)
  | .setDirty n => revalidateEffect e (setFieldDirty s n)

/-- Run a sequence of public operations. -/
def runOps (e : Env) (s : QState) (l : List Op) : QState :=
  l.foldl (applyOp e) s

/-- The hook's initial state: `initialStep`, `initialValues`, history seeded
with the initial snapshot, nothing dirty, no errors, forward direction. -/
def initState (initialStep : Nat) (initialValues : FormValueMap) : QState :=
  { currentStep := initialStep
    formData := initialValues
    isForward := true
    isSubmittingStep := false
    stepHistory := [(initialStep, initialValues)]
    dirtyFields := []
    errors := [] }

/-! ### Concrete sample configurations for evaluation -/

/-- A validator accepting any present value, rejecting a missing key. -/
def vPresent : Validator := fun ov =>
  match ov with
  | some _ => none
  | none => some "Required"

/-- A validator rejecting the empty string and a missing key. -/
def vNonEmpty : Validator := fun ov =>
  match ov with
  | some v => if v = "" then some "Too short" else none
  | none => some "Required"

/-- A question with no validator. -/
def qPlain (n : String) : Question := ⟨n, none, false⟩

/-- A question validated by `vPresent`. -/
def qPresent (n : String) : Question := ⟨n, some vPresent, false⟩

/-- A question validated by `vNonEmpty`. -/
def qNonEmpty (n : String) : Question := ⟨n, some vNonEmpty, false⟩

/-- An environment with no optional callbacks supplied. -/
def plainEnv (cfg : List Step) : Env :=
  { config := cfg
    onBeforeNext := none
    onBeforeBack := none
    hasOnCompleted := false
    completedThrows := false
    hasOnExit := false }

/-- Two validator-free steps, no callbacks. -/
def envTwoPlain : Env := plainEnv [⟨[qPlain "a"]⟩, ⟨[qPlain "b"]⟩]

/-- A presence-validated first step and a pre-advance gate that always
refuses. -/
def envGateRefuse : Env :=
  { plainEnv [⟨[qPresent "a"]⟩, ⟨[qPlain "b"]⟩] with
      onBeforeNext := some (fun _ _ => false) }

/-- The state fed to `envGateRefuse`: field `"a"` already answered, nothing
dirty. -/
def stGateRefuse : QState := initState 0 [("a", "x")]

/-- A single validator-free step whose completion callback raises. -/
def envThrowingCompletion : Env :=
  { plainEnv [⟨[qPlain "a"]⟩] with
      hasOnCompleted := true
      completedThrows := true }

/-- Recognizer for completion-callback invocation events. -/
def isCompletedEvent : Event → Bool
  | Event.completedCall _ => true
  | _ => false

/-- Three validator-free steps, no callbacks. -/
def envThreePlain : Env :=
  plainEnv [⟨[qPlain "a"]⟩, ⟨[qPlain "b"]⟩, ⟨[qPlain "c"]⟩]

/-- One step with a `vNonEmpty`-validated field `"email"` followed by a
plain step: exercises dirty-gated error publishing. -/
def envEmail : Env := plainEnv [⟨[qNonEmpty "email"]⟩, ⟨[qPlain "b"]⟩]

/-- A state at step 0 whose history already holds an entry for step 1 that
differs from the live form data. -/
def stHistoryNext : QState :=
  { initState 0 [] with stepHistory := [(0, []), (1, [("x", "1")])] }

/-- Edit on step 0, jump to step 1, edit there, jump back: leaves the live
form data ahead of the step-0 history snapshot. -/
def opsC2pre : List Op :=
  [Op.input "a" "1", Op.goto 1, Op.input "b" "2", Op.goto 0]

/-! ### Association-list lemmas -/

theorem lookup_upsert_self {α β : Type} [DecidableEq α]
    (m : List (α × β)) (k : α) (v : β) :
    lookup (upsert m k v) k = some v := by
  induction m with
  | nil => simp [upsert, lookup]
  | cons p t ih =>
    by_cases h : p.1 = k
    · simp [upsert, h, lookup]
    · simp [upsert, h, lookup, ih]

theorem lookup_upsert_ne {α β : Type} [DecidableEq α]
    (m : List (α × β)) (k k' : α) (v : β) (hne : k' ≠ k) :
    lookup (upsert m k v) k' = lookup m k' := by
  induction m with
  | nil =>
    have hkk : ¬(k = k') := fun h => hne h.symm
    simp [upsert, lookup, hkk]
  | cons p t ih =>
    by_cases h : p.1 = k
    · have hk : ¬((k, v).1 = k') := fun hh => hne hh.symm
      have hp : ¬(p.1 = k') := fun hh => hne (h.symm.trans hh).symm
      simp only [upsert, if_pos h, lookup]
      rw [if_neg hk, if_neg hp]
    · simp only [upsert, if_neg h, lookup]
      by_cases h' : p.1 = k'
      · rw [if_pos h', if_pos h']
      · rw [if_neg h', if_neg h', ih]

theorem mem_addFlag_left (l : List String) (n m : String) (h : n ∈ l) :
    n ∈ addFlag l m := by
  unfold addFlag
  split <;> simp [h]

theorem mem_addFlag_self (l : List String) (n : String) :
    n ∈ addFlag l n := by
  unfold addFlag
  split
  · next h => exact h
  · simp

theorem addFlag_ne_nil (l : List String) (n : String) :
    addFlag l n ≠ [] := by
  unfold addFlag
  split
  · next h =>
    intro hl
    rw [hl] at h
    cases h
  · simp

/-- Every question name of the step ends up in `dirtyAll`. -/
theorem mem_dirtyAll (qs : List Question) (q : Question) (hq : q ∈ qs) :
    q.name ∈ dirtyAll qs := by
  have main : ∀ (l : List Question) (acc : List String),
      (q ∈ l ∨ q.name ∈ acc) → q.name ∈ l.foldl (fun a r => addFlag a r.name) acc := by
    intro l
    induction l with
    | nil =>
      intro acc h
      rcases h with h | h
      · cases h
      · simpa using h
    | cons r t ih =>
      intro acc h
      show q.name ∈ t.foldl (fun a r => addFlag a r.name) (addFlag acc r.name)
      rcases h with h | h
      · rcases List.mem_cons.mp h with h | h
        · exact ih (addFlag acc r.name) (Or.inr (h ▸ mem_addFlag_self acc r.name))
        · exact ih (addFlag acc r.name) (Or.inl h)
      · exact ih (addFlag acc r.name) (Or.inr (mem_addFlag_left acc q.name r.name h))
  exact main qs [] (Or.inl hq)

/-! ### Frame lemmas: which fields each transformer leaves untouched -/

theorem validateStep_frame (e : Env) (s : QState) :
    (validateStep e s).1.currentStep = s.currentStep ∧
    (validateStep e s).1.formData = s.formData ∧
    (validateStep e s).1.stepHistory = s.stepHistory ∧
    (validateStep e s).1.isForward = s.isForward ∧
    (validateStep e s).1.isSubmittingStep = s.isSubmittingStep := by
  unfold validateStep
  dsimp only
  split
  · exact ⟨rfl, rfl, rfl, rfl, rfl⟩
  · split <;> exact ⟨rfl, rfl, rfl, rfl, rfl⟩

theorem revalidateEffect_frame (e : Env) (s : QState) :
    (revalidateEffect e s).currentStep = s.currentStep ∧
    (revalidateEffect e s).formData = s.formData ∧
    (revalidateEffect e s).stepHistory = s.stepHistory ∧
    (revalidateEffect e s).isForward = s.isForward ∧
    (revalidateEffect e s).isSubmittingStep = s.isSubmittingStep ∧
    (revalidateEffect e s).dirtyFields = s.dirtyFields := by
  unfold revalidateEffect
  dsimp only
  split
  · exact ⟨rfl, rfl, rfl, rfl, rfl, rfl⟩
  · split
    · exact ⟨rfl, rfl, rfl, rfl, rfl, rfl⟩
    · split <;> exact ⟨rfl, rfl, rfl, rfl, rfl, rfl⟩

/-! ### Index lemmas for the navigation handlers -/

theorem handleBack_index_le (e : Env) (s : QState) :
    (handleBack e s).1.currentStep ≤ s.currentStep := by
  unfold handleBack
  split
  · split
    · exact Nat.sub_le s.currentStep 1
    · exact le_rfl
  · exact le_rfl

theorem handleNext_index (e : Env) (s : QState) :
    (handleNext e s).1.currentStep = s.currentStep ∨
    ((handleNext e s).1.currentStep = s.currentStep + 1 ∧
      s.currentStep < e.config.length - 1) := by
  simp only [handleNext]
  split
  · split
    · split
      · next h => exact Or.inr ⟨rfl, h⟩
      · exact Or.inl (validateStep_frame e s).1
    · exact Or.inl (validateStep_frame e s).1
  · exact Or.inl (validateStep_frame e s).1

theorem handleSkip_index (e : Env) (s : QState) :
    (handleSkip e s).1.currentStep = s.currentStep ∨
    ((handleSkip e s).1.currentStep = s.currentStep + 1 ∧
      s.currentStep < e.config.length - 1) := by
  simp only [handleSkip]
  split
  · split
    · next h => exact Or.inr ⟨rfl, h⟩
    · exact Or.inl rfl
  · exact Or.inl rfl

theorem goToStep_index_lt (e : Env) (s : QState) (i : Int)
    (h : s.currentStep < e.config.length) :
    (goToStep e s i).currentStep < e.config.length := by
  unfold goToStep
  split
  · next hin =>
    show i.toNat < e.config.length
    omega
  · exact h

theorem applyOp_index_lt (e : Env) (s : QState) (o : Op)
    (h : s.currentStep < e.config.length) :
    (applyOp e s o).currentStep < e.config.length := by
  cases o with
  | next =>
    simp only [applyOp]
    rw [(revalidateEffect_frame e _).1]
    rcases handleNext_index e s with h1 | ⟨h1, h2⟩ <;> omega
  | back =>
    simp only [applyOp]
    rw [(revalidateEffect_frame e _).1]
    have := handleBack_index_le e s
    omega
  | skip =>
    simp only [applyOp]
    rw [(revalidateEffect_frame e _).1]
    rcases handleSkip_index e s with h1 | ⟨h1, h2⟩ <;> omega
  | validate =>
    simp only [applyOp]
    rw [(revalidateEffect_frame e _).1, (validateStep_frame e s).1]
    exact h
  | input n v =>
    simp only [applyOp]
    rw [(revalidateEffect_frame e _).1]
    exact h
  | goto i =>
    simp only [applyOp]
    rw [(revalidateEffect_frame e _).1]
    exact goToStep_index_lt e s i h
  | setDirty n =>
    simp only [applyOp]
    rw [(revalidateEffect_frame e _).1]
    exact h

/-! ### Claim theorems -/

/-- C9: the committed step index stays in `[0, length-1]` across every
sequence of the public operations — advance and skip increment only below
the last index, retreat decrements only above 0, and jumps reject
out-of-range targets. -/
theorem C9_index_invariant (e : Env) (s0 : QState) (ops : List Op)
    (h0 : s0.currentStep < e.config.length) :
    (runOps e s0 ops).currentStep < e.config.length := by
  induction ops generalizing s0 with
  | nil => exact h0
  | cons o t ih => exact ih (applyOp e s0 o) (applyOp_index_lt e s0 o h0)

/-- Witness for C9 on a concrete operation sequence that tries an
out-of-range jump, an advance past the end, and a retreat below zero. -/
theorem C9_index_invariant_witness :
    (runOps envTwoPlain (initState 0 [])
      [Op.next, Op.goto 5, Op.next, Op.back, Op.back]).currentStep <
      envTwoPlain.config.length :=
  C9_index_invariant envTwoPlain (initState 0 [])
    [Op.next, Op.goto 5, Op.next, Op.back, Op.back] (by decide)

/-- C1 (amended): when step validation passes but the pre-advance gate
resolves false, `handleNext` cancels the transition with the step index,
form data, step history, direction flag and submitting flag unchanged and
no observable call emitted; however the dirty-field set and the error map
keep the writes `validateStep` performed before the gate was consulted
(every field of the step marked dirty, errors replaced). -/
theorem C1_gate_refusal_cancels (e : Env) (s : QState)
    (hv : (validateStep e s).2 = true)
    (hg : nextGatePasses e s = false) :
    handleNext e s = ((validateStep e s).1, []) ∧
    (handleNext e s).1.currentStep = s.currentStep ∧
    (handleNext e s).1.formData = s.formData ∧
    (handleNext e s).1.stepHistory = s.stepHistory ∧
    (handleNext e s).1.isForward = s.isForward ∧
    (handleNext e s).1.isSubmittingStep = s.isSubmittingStep ∧
    (handleNext e s).2 = [] := by
  have hmain : handleNext e s = ((validateStep e s).1, []) := by
    simp only [handleNext, hv, hg, if_true, Bool.false_eq_true, if_false]
  rw [hmain]
  exact ⟨rfl, (validateStep_frame e s).1, (validateStep_frame e s).2.1,
    (validateStep_frame e s).2.2.1, (validateStep_frame e s).2.2.2.1,
    (validateStep_frame e s).2.2.2.2, rfl⟩

/-- Witness for C1 on `envGateRefuse`: validation passes, the gate refuses,
the call returns the validated state and no events. -/
theorem C1_gate_refusal_cancels_witness :
    handleNext envGateRefuse stGateRefuse =
      ((validateStep envGateRefuse stGateRefuse).1, []) :=
  (C1_gate_refusal_cancels envGateRefuse stGateRefuse (by decide) (by decide)).1

/-- C1 counterexample: the claim as stated is false — in `envGateRefuse`
validation passes and the gate refuses, yet the dirty-field set after the
cancelled `handleNext` differs from the one before the call (the validation
pass marked field `"a"` dirty). -/
theorem C1_counterexample :
    (validateStep envGateRefuse stGateRefuse).2 = true ∧
    nextGatePasses envGateRefuse stGateRefuse = false ∧
    (handleNext envGateRefuse stGateRefuse).1.dirtyFields ≠
      stGateRefuse.dirtyFields := by
  decide

/-- C8: `goToStep` with an in-range index `i` sets the step index to `i`
and touches nothing else (no history restore), after which reading the
current step data returns exactly `config[i]`; an out-of-range index leaves
the state entirely unchanged. -/
theorem C8_jumpTo_spec (e : Env) (s : QState) (i : Int) :
    (0 ≤ i ∧ i < e.config.length →
      goToStep e s i = { s with currentStep := i.toNat } ∧
      e.config[i.toNat]? = some (currentStepData e (goToStep e s i))) ∧
    (¬(0 ≤ i ∧ i < e.config.length) → goToStep e s i = s) := by
  constructor
  · intro h
    have hlt : i.toNat < e.config.length := by omega
    constructor
    · simp [goToStep, h]
    · simp [goToStep, h, currentStepData, List.getD_eq_getElem?_getD,
        List.getElem?_eq_getElem hlt]
  · intro h
    simp only [goToStep, if_neg h]

/-- Witness for C8 at `i = 1` in a two-step configuration. -/
theorem C8_jumpTo_spec_witness :
    goToStep envTwoPlain (initState 0 []) 1 =
      { initState 0 [] with currentStep := (1 : Int).toNat } ∧
    envTwoPlain.config[(1 : Int).toNat]? =
      some (currentStepData envTwoPlain (goToStep envTwoPlain (initState 0 []) 1)) :=
  (C8_jumpTo_spec envTwoPlain (initState 0 []) 1).1 (by decide)

/-- C10: `handleBack` never mutates the error map, the dirty-field set, or
the step history (stale entries persist across backward navigation), and at
index 0 it leaves the whole state — index and form data included —
unchanged, emitting nothing but the exit-intent call. -/
theorem C10_retreat_frame (e : Env) (s : QState) :
    ((handleBack e s).1.errors = s.errors ∧
     (handleBack e s).1.dirtyFields = s.dirtyFields ∧
     (handleBack e s).1.stepHistory = s.stepHistory) ∧
    (s.currentStep = 0 →
      (handleBack e s).1 = s ∧
      (handleBack e s).2 = (if e.hasOnExit then [Event.exitCall] else []) ∧
      ∀ ev ∈ (handleBack e s).2, ev = Event.exitCall) := by
  constructor
  · unfold handleBack
    split
    · split
      · exact ⟨rfl, rfl, rfl⟩
      · exact ⟨rfl, rfl, rfl⟩
    · exact ⟨rfl, rfl, rfl⟩
  · intro h0
    have hneg : ¬0 < s.currentStep := by omega
    unfold handleBack
    rw [if_neg hneg]
    refine ⟨rfl, rfl, ?_⟩
    intro ev hev
    dsimp only at hev
    split at hev
    · simpa using hev
    · cases hev

/-- Witness for C10 at index 0 with an exit callback present. -/
theorem C10_retreat_frame_witness :
    (handleBack { envTwoPlain with hasOnExit := true } (initState 0 [])).1 =
      initState 0 [] ∧
    (handleBack { envTwoPlain with hasOnExit := true } (initState 0 [])).2 =
      (if ({ envTwoPlain with hasOnExit := true } : Env).hasOnExit then
        [Event.exitCall] else []) ∧
    ∀ ev ∈ (handleBack { envTwoPlain with hasOnExit := true } (initState 0 [])).2,
      ev = Event.exitCall :=
  (C10_retreat_frame { envTwoPlain with hasOnExit := true } (initState 0 [])).2 rfl

/-- C6: `isStepValid` is a pure predicate, true iff the active step has no
validators, or every question of it is skippable, or the compiled schema
accepts the current form data; and any number of calls to it leaves the
controller state untouched. -/
theorem C6_isStepSatisfied_spec (e : Env) (s : QState) (n : Nat) :
    (isStepValid e s = true ↔
      ((currentStepData e s).questions.all (fun q => q.validation.isNone) = true ∨
       (currentStepData e s).questions.all (fun (q : Question) => q.skippable) = true ∨
       schemaErrors (currentStepData e s).questions s.formData = [])) ∧
    (fun st => (isStepValidOp e st).1)^[n] s = s := by
  constructor
  · unfold isStepValid
    dsimp only
    split
    · next h => simp [h]
    · next h =>
      split
      · next h2 => simp [h, h2]
      · next h2 => simp [h, h2, List.isEmpty_iff]
  · have hid : (fun st => (isStepValidOp e st).1) = id := rfl
    rw [hid, Function.iterate_id, id]

/-- Witness for C6: five calls in a row leave a concrete state unchanged. -/
theorem C6_isStepSatisfied_spec_witness :
    (fun st => (isStepValidOp envGateRefuse st).1)^[5] stGateRefuse = stGateRefuse :=
  (C6_isStepSatisfied_spec envGateRefuse stGateRefuse 5).2

/-- A step without validators compiles to the empty schema shape. -/
theorem buildShape_eq_nil (qs : List Question)
    (h : qs.all (fun q => q.validation.isNone) = true) :
    buildShape qs = [] := by
  induction qs with
  | nil => rfl
  | cons q t ih =>
    simp only [List.all_cons, Bool.and_eq_true] at h
    have hq : q.validation = none := Option.isNone_iff_eq_none.mp h.1
    show (q :: t).foldl _ ([] : List (String × Validator)) = []
    rw [List.foldl_cons]
    have hstep :
        (match q.validation with
          | some v => upsert ([] : List (String × Validator)) q.name v
          | none => ([] : List (String × Validator))) = [] := by
      rw [hq]
    rw [hstep]
    exact ih h.2

/-- C3: advancing on the last step (validation and gate passing, a
completion callback supplied) toggles the submitting flag true, invokes the
completion callback exactly once with the full accumulated form data,
toggles the flag back false — logging, never re-throwing, a raising
callback — and leaves form data, history and the step index unchanged. -/
theorem C3_terminal_submission (e : Env) (s : QState)
    (hlast : ¬s.currentStep < e.config.length - 1)
    (hv : (validateStep e s).2 = true)
    (hg : nextGatePasses e s = true)
    (hcb : e.hasOnCompleted = true) :
    (handleNext e s).2 =
      [Event.submittingSet true, Event.completedCall s.formData] ++
        (if e.completedThrows then [Event.errorLogged] else []) ++
        [Event.submittingSet false] ∧
    (handleNext e s).2.filter isCompletedEvent = [Event.completedCall s.formData] ∧
    (handleNext e s).1.isSubmittingStep = false ∧
    (handleNext e s).1.formData = s.formData ∧
    (handleNext e s).1.currentStep = s.currentStep ∧
    (handleNext e s).1.stepHistory = s.stepHistory := by
  have hmain :
      handleNext e s =
        ({ (validateStep e s).1 with isForward := true, isSubmittingStep := false },
          submitEvents e s.formData) := by
    simp only [handleNext, hv, if_true, hg, hlast, if_false]
  rw [hmain]
  refine ⟨?_, ?_, rfl, (validateStep_frame e s).2.1, (validateStep_frame e s).1,
    (validateStep_frame e s).2.2.1⟩
  · simp [submitEvents, hcb]
  · cases hthrow : e.completedThrows <;>
      simp [submitEvents, hcb, hthrow, isCompletedEvent]

/-- Witness for C3 on `envThrowingCompletion`: the full event trace of the
terminal advance, fault path included. -/
theorem C3_terminal_submission_witness :
    (handleNext envThrowingCompletion (initState 0 [])).2 =
      [Event.submittingSet true, Event.completedCall (initState 0 []).formData] ++
        (if envThrowingCompletion.completedThrows then [Event.errorLogged] else []) ++
        [Event.submittingSet false] :=
  (C3_terminal_submission envThrowingCompletion (initState 0 [])
    (by decide) (by decide) (by decide) (by decide)).1

/-- C5 (amended): `validateStep` marks every field of the active step dirty
only when the step has at least one validator — a validator-free step is
accepted early, clearing the error map but leaving the dirty set untouched —
and it returns true iff the compiled schema accepts the form data (the
step-satisfied predicate's all-skippable escape is not consulted), clearing
the error map on acceptance and replacing it with the per-field messages on
failure; form data and the index are never changed. -/
theorem C5_validateNow_spec (e : Env) (s : QState) :
    ((¬(currentStepData e s).questions.all (fun q => q.validation.isNone) = true →
       ∀ q ∈ (currentStepData e s).questions,
         q.name ∈ (validateStep e s).1.dirtyFields) ∧
     ((currentStepData e s).questions.all (fun q => q.validation.isNone) = true →
       (validateStep e s).1.dirtyFields = s.dirtyFields)) ∧
    ((validateStep e s).2 = true ↔
      schemaErrors (currentStepData e s).questions s.formData = []) ∧
    ((validateStep e s).2 = true → (validateStep e s).1.errors = []) ∧
    ((validateStep e s).2 = false →
      (validateStep e s).1.errors =
        buildErrorMap (schemaErrors (currentStepData e s).questions s.formData)) ∧
    (validateStep e s).1.formData = s.formData ∧
    (validateStep e s).1.currentStep = s.currentStep := by
  unfold validateStep
  dsimp only
  split
  · next hall =>
    have hse : schemaErrors (currentStepData e s).questions s.formData = [] := by
      unfold schemaErrors
      rw [buildShape_eq_nil _ hall]
      rfl
    refine ⟨⟨fun hc => absurd hall hc, fun _ => rfl⟩, ?_, fun _ => rfl, ?_, rfl, rfl⟩
    · simp [hse]
    · intro hfalse
      cases hfalse
  · next hall =>
    split
    · next hempty =>
      rw [List.isEmpty_iff] at hempty
      refine ⟨⟨fun _ q hq => mem_dirtyAll _ q hq, fun hc => absurd hc hall⟩,
        ?_, fun _ => rfl, ?_, rfl, rfl⟩
      · simp [hempty]
      · intro hfalse
        cases hfalse
    · next hempty =>
      rw [List.isEmpty_iff] at hempty
      refine ⟨⟨fun _ q hq => mem_dirtyAll _ q hq, fun hc => absurd hc hall⟩,
        ?_, ?_, fun _ => rfl, rfl, rfl⟩
      · simp [hempty]
      · intro htrue
        cases htrue

/-- Witness for C5 on a failing non-empty validation: field dirty, result
false, error map filled. -/
theorem C5_validateNow_spec_witness :
    (validateStep envEmail (initState 0 [])).2 = false →
    (validateStep envEmail (initState 0 [])).1.errors =
      buildErrorMap
        (schemaErrors (currentStepData envEmail (initState 0 [])).questions
          (initState 0 []).formData) :=
  (C5_validateNow_spec envEmail (initState 0 [])).2.2.2.1

/-- C5 counterexample: the claim as stated is false — on a validator-free
step `validateStep` returns without marking anything dirty, so "marks every
field of the active step dirty" fails while the step does have a field. -/
theorem C5_counterexample :
    (currentStepData envTwoPlain (initState 0 [])).questions.map Question.name = ["a"] ∧
    (validateStep envTwoPlain (initState 0 [])).2 = true ∧
    (validateStep envTwoPlain (initState 0 [])).1.dirtyFields = [] := by
  decide

/-- C4 (amended): when step validation passes and the pre-advance gate
approves, `handleSkip` agrees with `handleNext` on the step-index increment,
the direction flag, the submitting flag and the emitted events (terminal
submission included); but the data channels differ: skip leaves form data,
error map and dirty set untouched and seeds an empty history entry for the
next step when none exists, while advance leaves the history untouched and
restores its entry for the next step into the form data (and carries
`validateStep`'s dirty/error writes). -/
theorem C4_skip_vs_advance (e : Env) (s : QState)
    (hv : (validateStep e s).2 = true)
    (hg : nextGatePasses e s = true) :
    (handleNext e s).1.currentStep = (handleSkip e s).1.currentStep ∧
    (handleNext e s).1.isForward = (handleSkip e s).1.isForward ∧
    (handleNext e s).1.isSubmittingStep = (handleSkip e s).1.isSubmittingStep ∧
    (handleNext e s).2 = (handleSkip e s).2 ∧
    (handleSkip e s).1.formData = s.formData ∧
    (handleSkip e s).1.errors = s.errors ∧
    (handleSkip e s).1.dirtyFields = s.dirtyFields ∧
    (handleNext e s).1.stepHistory = s.stepHistory ∧
    (s.currentStep < e.config.length - 1 →
      (handleNext e s).1.formData =
        (match lookup s.stepHistory (s.currentStep + 1) with
          | some h => h
          | none => s.formData) ∧
      (handleSkip e s).1.stepHistory =
        (match lookup s.stepHistory (s.currentStep + 1) with
          | some _ => s.stepHistory
          | none => upsert s.stepHistory (s.currentStep + 1) [])) := by
  have hfr := validateStep_frame e s
  by_cases hlt : s.currentStep < e.config.length - 1
  · have hN : handleNext e s =
        ({ (validateStep e s).1 with
            isForward := true
            currentStep := s.currentStep + 1
            formData :=
              match lookup s.stepHistory (s.currentStep + 1) with
              | some h => h
              | none => (validateStep e s).1.formData }, []) := by
      simp only [handleNext, hv, hg, if_true, hlt]
    have hS : handleSkip e s =
        ({ s with
            isForward := true
            currentStep := s.currentStep + 1
            stepHistory :=
              match lookup s.stepHistory (s.currentStep + 1) with
              | some _ => s.stepHistory
              | none => upsert s.stepHistory (s.currentStep + 1) [] }, []) := by
      simp only [handleSkip, hg, if_true, hlt]
    rw [hN, hS]
    refine ⟨rfl, rfl, hfr.2.2.2.2, rfl, rfl, rfl, rfl, hfr.2.2.1,
      fun _ => ⟨?_, rfl⟩⟩
    show (match lookup s.stepHistory (s.currentStep + 1) with
      | some h => h
      | none => (validateStep e s).1.formData) = _
    rw [hfr.2.1]
  · have hN : handleNext e s =
        ({ (validateStep e s).1 with isForward := true, isSubmittingStep := false },
          submitEvents e s.formData) := by
      simp only [handleNext, hv, hg, if_true, hlt, if_false]
    have hS : handleSkip e s =
        ({ s with isForward := true, isSubmittingStep := false },
          submitEvents e s.formData) := by
      simp only [handleSkip, hg, if_true, hlt, if_false]
    rw [hN, hS]
    exact ⟨hfr.1, rfl, rfl, rfl, rfl, rfl, rfl, hfr.2.2.1,
      fun hc => absurd hc hlt⟩

/-- Witness for C4 on `stHistoryNext`: both calls advance to step 1 and emit
nothing. -/
theorem C4_skip_vs_advance_witness :
    (handleNext envTwoPlain stHistoryNext).1.currentStep =
      (handleSkip envTwoPlain stHistoryNext).1.currentStep :=
  (C4_skip_vs_advance envTwoPlain stHistoryNext (by decide) (by decide)).1

/-- C4 counterexample: the claim as stated is false — on `stHistoryNext`
the step is satisfied and the gate approves, yet advance and skip produce
different post-states: advance restores the history entry for step 1 into
the form data, skip leaves the form data alone. -/
theorem C4_counterexample :
    isStepValid envTwoPlain stHistoryNext = true ∧
    nextGatePasses envTwoPlain stHistoryNext = true ∧
    (handleNext envTwoPlain stHistoryNext).1.formData ≠
      (handleSkip envTwoPlain stHistoryNext).1.formData := by
  decide

/-- C2 (amended): if step i's history entry is `h` when the user advances
from i (validation/gates passing), then after any sequence of edits on step
i+1 a retreat restores the form data to exactly `h` — the snapshot recorded
at the last edit made on step i (or the initial seed), not necessarily the
live map at the moment of leaving. -/
theorem C2_round_trip (e : Env) (s : QState) (h : FormValueMap)
    (edits : List (String × Value))
    (hv : (validateStep e s).2 = true)
    (hg : nextGatePasses e s = true)
    (hlt : s.currentStep < e.config.length - 1)
    (hhist : lookup s.stepHistory s.currentStep = some h)
    (hbg : backGatePasses e
      (runOps e (applyOp e s Op.next)
        (edits.map (fun p => Op.input p.1 p.2))) = true) :
    (applyOp e
      (runOps e (applyOp e s Op.next) (edits.map (fun p => Op.input p.1 p.2)))
      Op.back).formData = h := by
  have h1cur : (applyOp e s Op.next).currentStep = s.currentStep + 1 := by
    simp only [applyOp]
    rw [(revalidateEffect_frame e _).1]
    simp only [handleNext, hv, hg, if_true, hlt]
  have h1hist :
      lookup (applyOp e s Op.next).stepHistory s.currentStep = some h := by
    simp only [applyOp]
    rw [(revalidateEffect_frame e _).2.2.1]
    simp only [handleNext, hv, hg, if_true, hlt]
    show lookup (validateStep e s).1.stepHistory s.currentStep = some h
    rw [(validateStep_frame e s).2.2.1]
    exact hhist
  have hinv : ∀ (l : List (String × Value)) (st : QState),
      st.currentStep = s.currentStep + 1 →
      lookup st.stepHistory s.currentStep = some h →
      (runOps e st (l.map (fun p => Op.input p.1 p.2))).currentStep =
        s.currentStep + 1 ∧
      lookup (runOps e st (l.map (fun p => Op.input p.1 p.2))).stepHistory
        s.currentStep = some h := by
    intro l
    induction l with
    | nil => exact fun st hc hh => ⟨hc, hh⟩
    | cons p t ih =>
      intro st hc hh
      apply ih
      · simp only [applyOp]
        rw [(revalidateEffect_frame e _).1]
        exact hc
      · simp only [applyOp]
        rw [(revalidateEffect_frame e _).2.2.1]
        show lookup (upsert st.stepHistory st.currentStep _) s.currentStep = some h
        rw [lookup_upsert_ne]
        · exact hh
        · omega
  obtain ⟨h2cur, h2hist⟩ :=
    hinv edits (applyOp e s Op.next) h1cur h1hist
  set S2 := runOps e (applyOp e s Op.next)
    (edits.map (fun p => Op.input p.1 p.2)) with hS2
  have hpos : 0 < S2.currentStep := by omega
  have hprev : S2.currentStep - 1 = s.currentStep := by omega
  show (applyOp e S2 Op.back).formData = h
  simp only [applyOp]
  rw [(revalidateEffect_frame e _).2.1]
  simp only [handleBack, hpos, if_true, hbg]
  show (match lookup S2.stepHistory (S2.currentStep - 1) with
    | some h => h
    | none => S2.formData) = h
  rw [hprev, h2hist]

/-- Witness for C2 after one edit on step 0 and one on step 1. -/
theorem C2_round_trip_witness :
    (applyOp envTwoPlain
      (runOps envTwoPlain
        (applyOp envTwoPlain
          (runOps envTwoPlain (initState 0 []) [Op.input "a" "1"]) Op.next)
        ([(("b" : String), ("2" : Value))].map (fun p => Op.input p.1 p.2)))
      Op.back).formData = [("a", "1")] :=
  C2_round_trip envTwoPlain
    (runOps envTwoPlain (initState 0 []) [Op.input "a" "1"])
    [("a", "1")] [("b", "2")]
    (by decide) (by decide) (by decide) (by decide) (by decide)

/-- C2 counterexample: the claim as stated is false — a reachable state at
step 0 (reached by editing on step 0, jumping to step 1, editing there, and
jumping back) passes validation and gating, yet advance-then-retreat does
not restore the form data to the snapshot held when step 0 was last left:
the retreat restores the stale step-0 history entry instead. -/
theorem C2_counterexample :
    (validateStep envTwoPlain (runOps envTwoPlain (initState 0 []) opsC2pre)).2 =
      true ∧
    nextGatePasses envTwoPlain (runOps envTwoPlain (initState 0 []) opsC2pre) =
      true ∧
    backGatePasses envTwoPlain
      (runOps envTwoPlain (initState 0 []) (opsC2pre ++ [Op.next])) = true ∧
    (runOps envTwoPlain (initState 0 []) (opsC2pre ++ [Op.next, Op.back])).formData ≠
      (runOps envTwoPlain (initState 0 []) opsC2pre).formData := by
  decide

/-! ### Lemmas for dirty-gated error publishing -/

theorem mem_upsert_self {α β : Type} [DecidableEq α]
    (m : List (α × β)) (k : α) (v : β) :
    (k, v) ∈ upsert m k v := by
  induction m with
  | nil => simp [upsert]
  | cons p t ih =>
    by_cases h : p.1 = k
    · simp only [upsert, if_pos h]
      exact List.mem_cons_self _ _
    · simp only [upsert, if_neg h]
      exact List.mem_cons_of_mem _ ih

theorem mem_upsert_of_ne {α β : Type} [DecidableEq α]
    {m : List (α × β)} {k : α} {v : β} (p : α × β)
    (hp : p ∈ m) (hne : p.1 ≠ k) :
    p ∈ upsert m k v := by
  induction m with
  | nil => cases hp
  | cons q t ih =>
    by_cases hq : q.1 = k
    · simp only [upsert, if_pos hq]
      rcases List.mem_cons.mp hp with h | h
      · exact absurd (by rw [h]; exact hq) hne
      · exact List.mem_cons_of_mem _ h
    · simp only [upsert, if_neg hq]
      rcases List.mem_cons.mp hp with h | h
      · exact List.mem_cons.mpr (Or.inl h)
      · exact List.mem_cons_of_mem _ (ih h)

theorem mem_upsert_elim {α β : Type} [DecidableEq α]
    {m : List (α × β)} {k : α} {v : β} {p : α × β}
    (hp : p ∈ upsert m k v) : p ∈ m ∨ p = (k, v) := by
  induction m with
  | nil =>
    simp only [upsert] at hp
    exact Or.inr (List.mem_singleton.mp hp)
  | cons q t ih =>
    by_cases hq : q.1 = k
    · simp only [upsert, if_pos hq] at hp
      rcases List.mem_cons.mp hp with h | h
      · exact Or.inr h
      · exact Or.inl (List.mem_cons_of_mem _ h)
    · simp only [upsert, if_neg hq] at hp
      rcases List.mem_cons.mp hp with h | h
      · exact Or.inl (List.mem_cons.mpr (Or.inl h))
      · rcases ih h with h2 | h2
        · exact Or.inl (List.mem_cons_of_mem _ h2)
        · exact Or.inr h2

/-- Everything the effect publishes is a dirty-named schema failure. -/
theorem publishDirty_sub (dirty : List String) (errs : List (String × String)) :
    ∀ p ∈ publishDirty dirty errs, p.1 ∈ dirty ∧ p ∈ errs := by
  have aux : ∀ (l acc : List (String × String)) (p : String × String),
      p ∈ l.foldl (fun acc q => if q.1 ∈ dirty then upsert acc q.1 q.2 else acc) acc →
      p ∈ acc ∨ (p.1 ∈ dirty ∧ p ∈ l) := by
    intro l
    induction l with
    | nil => exact fun acc p hp => Or.inl hp
    | cons q t ih =>
      intro acc p hp
      rw [List.foldl_cons] at hp
      rcases ih _ p hp with h | ⟨h1, h2⟩
      · by_cases hq : q.1 ∈ dirty
        · rw [if_pos hq] at h
          rcases mem_upsert_elim h with h2 | h2
          · exact Or.inl h2
          · refine Or.inr ⟨?_, ?_⟩
            · rw [h2]; exact hq
            · rw [h2]; exact List.mem_cons.mpr (Or.inl rfl)
        · rw [if_neg hq] at h
          exact Or.inl h
      · exact Or.inr ⟨h1, List.mem_cons_of_mem _ h2⟩
  intro p hp
  rcases aux errs [] p hp with h | h
  · cases h
  · exact h

/-- A dirty-named failure with a key occurring once is published. -/
theorem publishDirty_mem (dirty : List String) (errs : List (String × String))
    (n msg : String)
    (hmem : (n, msg) ∈ errs) (hnd : (errs.map Prod.fst).Nodup)
    (hd : n ∈ dirty) :
    (n, msg) ∈ publishDirty dirty errs := by
  have aux : ∀ (l acc : List (String × String)),
      (((n, msg) ∈ acc ∧ n ∉ l.map Prod.fst) ∨
        ((n, msg) ∈ l ∧ (l.map Prod.fst).Nodup)) →
      (n, msg) ∈
        l.foldl (fun acc q => if q.1 ∈ dirty then upsert acc q.1 q.2 else acc) acc := by
    intro l
    induction l with
    | nil =>
      intro acc h
      rcases h with ⟨h, _⟩ | ⟨h, _⟩
      · exact h
      · cases h
    | cons q t ih =>
      intro acc h
      rw [List.foldl_cons]
      rcases h with ⟨hacc, hnot⟩ | ⟨hmem2, hnd2⟩
      · have hq : (n, msg).1 ≠ q.1 := by
          intro hh
          exact hnot (by rw [List.map_cons]; exact List.mem_cons.mpr (Or.inl hh))
        have hnott : n ∉ t.map Prod.fst := fun hh =>
          hnot (by rw [List.map_cons]; exact List.mem_cons_of_mem _ hh)
        apply ih
        left
        refine ⟨?_, hnott⟩
        by_cases hqd : q.1 ∈ dirty
        · rw [if_pos hqd]
          exact mem_upsert_of_ne _ hacc hq
        · rw [if_neg hqd]
          exact hacc
      · rw [List.map_cons] at hnd2
        rcases List.mem_cons.mp hmem2 with h | h
        · subst h
          apply ih
          left
          refine ⟨?_, (List.nodup_cons.mp hnd2).1⟩
          rw [if_pos (show ((n, msg) : String × String).1 ∈ dirty from hd)]
          exact mem_upsert_self _ _ _
        · apply ih
          right
          exact ⟨h, (List.nodup_cons.mp hnd2).2⟩
  exact aux errs [] (Or.inr ⟨hmem, hnd⟩)

theorem upsert_append {α β : Type} [DecidableEq α]
    (m : List (α × β)) (k : α) (v : β)
    (h : ∀ p ∈ m, p.1 ≠ k) : upsert m k v = m ++ [(k, v)] := by
  induction m with
  | nil => rfl
  | cons q t ih =>
    have hq : ¬(q.1 = k) := h q (List.mem_cons_self _ _)
    simp only [upsert, if_neg hq, List.cons_append]
    rw [ih (fun p hp => h p (List.mem_cons_of_mem _ hp))]

/-- With per-step-unique names the compiled shape is just the declared
validators in declaration order. -/
theorem buildShape_nodup (qs : List Question)
    (hnd : (qs.map Question.name).Nodup) :
    buildShape qs =
      qs.filterMap (fun q => q.validation.map (fun f => (q.name, f))) := by
  have aux : ∀ (l : List Question) (acc : List (String × Validator)),
      (l.map Question.name).Nodup →
      (∀ p ∈ acc, p.1 ∉ l.map Question.name) →
      l.foldl
          (fun acc q =>
            match q.validation with
            | some v => upsert acc q.name v
            | none => acc) acc =
        acc ++ l.filterMap (fun q => q.validation.map (fun f => (q.name, f))) := by
    intro l
    induction l with
    | nil =>
      intro acc _ _
      simp
    | cons q t ih =>
      intro acc hnd2 hacc
      rw [List.map_cons, List.nodup_cons] at hnd2
      rw [List.foldl_cons]
      cases hv : q.validation with
      | none =>
        simp only [hv]
        rw [ih acc hnd2.2
          (fun p hp => fun hmem => hacc p hp (List.mem_cons_of_mem _ hmem))]
        simp [List.filterMap_cons, hv]
      | some f =>
        simp only [hv]
        have hne : ∀ p ∈ acc, p.1 ≠ q.name := fun p hp hh =>
          hacc p hp (by rw [List.map_cons]; exact List.mem_cons.mpr (Or.inl hh))
        rw [upsert_append acc q.name f hne]
        rw [ih (acc ++ [(q.name, f)]) hnd2.2 ?side]
        · simp [List.filterMap_cons, hv]
        case side =>
          intro p hp
          rcases List.mem_append.mp hp with h | h
          · exact fun hmem => hacc p h (List.mem_cons_of_mem _ hmem)
          · rw [List.mem_singleton.mp h]
            exact hnd2.1
  have := aux qs [] hnd (by intro p hp; cases hp)
  simpa using this

/-- Keys survive a `filterMap` that preserves them. -/
theorem filterMap_map_sublist {α β γ : Type} (f : α → Option β)
    (ka : α → γ) (kb : β → γ)
    (hk : ∀ a b, f a = some b → kb b = ka a) (l : List α) :
    ((l.filterMap f).map kb).Sublist (l.map ka) := by
  induction l with
  | nil => simp
  | cons a t ih =>
    cases hfa : f a with
    | none =>
      rw [List.filterMap_cons, hfa, List.map_cons]
      exact ih.cons _
    | some b =>
      rw [List.filterMap_cons, hfa, List.map_cons, List.map_cons,
        hk a b hfa]
      exact ih.cons₂ _

/-- With per-step-unique names the schema issues carry pairwise-distinct
field names. -/
theorem schemaErrors_keys_nodup (qs : List Question) (fd : FormValueMap)
    (hnd : (qs.map Question.name).Nodup) :
    ((schemaErrors qs fd).map Prod.fst).Nodup := by
  have h1 : ((schemaErrors qs fd).map Prod.fst).Sublist
      ((buildShape qs).map Prod.fst) := by
    unfold schemaErrors
    refine filterMap_map_sublist _ Prod.fst Prod.fst ?_ _
    intro p r h
    cases hm : p.2 (lookup fd p.1) with
    | none => rw [hm] at h; cases h
    | some m =>
      rw [hm] at h
      simp only [Option.map_some'] at h
      rw [← Option.some.inj h]
  have h2 : ((buildShape qs).map Prod.fst).Sublist (qs.map Question.name) := by
    rw [buildShape_nodup qs hnd]
    refine filterMap_map_sublist _ Question.name Prod.fst ?_ _
    intro q p h
    cases hv : q.validation with
    | none => rw [hv] at h; cases h
    | some f =>
      rw [hv] at h
      simp only [Option.map_some'] at h
      rw [← Option.some.inj h]
  exact ((h1.trans h2).nodup hnd)

/-- A failing validated question of the step yields a schema issue for its
name. -/
theorem mem_schemaErrors (qs : List Question) (fd : FormValueMap)
    (q : Question) (f : Validator) (msg : String)
    (hq : q ∈ qs) (hv : q.validation = some f)
    (hf : f (lookup fd q.name) = some msg)
    (hnd : (qs.map Question.name).Nodup) :
    (q.name, msg) ∈ schemaErrors qs fd := by
  have hshape : (q.name, f) ∈ buildShape qs := by
    rw [buildShape_nodup qs hnd]
    exact List.mem_filterMap.mpr ⟨q, hq, by rw [hv]; rfl⟩
  unfold schemaErrors
  exact List.mem_filterMap.mpr ⟨(q.name, f), hshape, by simp [hf]⟩

/-- C7: while the dirty set is non-empty, the revalidation effect publishes
into the error map only schema failures whose field name is dirty; a field
never touched gets no entry even when its value is invalid, and after an
edit writing an invalid value to a validated field of the active step
(whose names are unique, as the data model requires) the entry for that
field appears. -/
theorem C7_dirty_gated_errors (e : Env) (s : QState)
    (hdirty : s.dirtyFields ≠ []) :
    (∀ p ∈ (revalidateEffect e s).errors,
      p.1 ∈ s.dirtyFields ∧
      p ∈ schemaErrors (currentStepData e s).questions s.formData) ∧
    (∀ n, n ∉ s.dirtyFields → ∀ m, (n, m) ∉ (revalidateEffect e s).errors) ∧
    (∀ (v : Value) (q : Question) (f : Validator) (msg : String),
      q ∈ (currentStepData e s).questions →
      q.validation = some f →
      f (lookup (upsert s.formData q.name v) q.name) = some msg →
      ((currentStepData e s).questions.map Question.name).Nodup →
      (q.name, msg) ∈ (revalidateEffect e (handleInputChange s q.name v)).errors) := by
  have hde : ¬(s.dirtyFields.isEmpty = true) := by
    simpa [List.isEmpty_iff] using hdirty
  have hmain : ∀ p ∈ (revalidateEffect e s).errors,
      p.1 ∈ s.dirtyFields ∧
      p ∈ schemaErrors (currentStepData e s).questions s.formData := by
    intro p hp
    simp only [revalidateEffect, hde, Bool.false_eq_true, if_false] at hp
    split at hp
    · exact absurd hp (List.not_mem_nil p)
    · split at hp
      · exact absurd hp (List.not_mem_nil p)
      · exact publishDirty_sub _ _ p hp
  refine ⟨hmain, ?_, ?_⟩
  · intro n hn m hm
    exact hn (hmain (n, m) hm).1
  · intro v q f msg hq hval hf hnd
    have hde2 : ¬((handleInputChange s q.name v).dirtyFields.isEmpty = true) := by
      have h := addFlag_ne_nil s.dirtyFields q.name
      simpa [handleInputChange, List.isEmpty_iff] using h
    have hall2 : ¬((currentStepData e (handleInputChange s q.name v)).questions.all
        (fun r => r.validation.isNone) = true) := by
      intro hall
      have hq2 : q ∈ (currentStepData e (handleInputChange s q.name v)).questions := hq
      have hn2 := List.all_eq_true.mp hall q hq2
      rw [hval] at hn2
      simp at hn2
    have hmem2 : (q.name, msg) ∈
        schemaErrors (currentStepData e (handleInputChange s q.name v)).questions
          (handleInputChange s q.name v).formData := by
      have hq2 : q ∈ (currentStepData e (handleInputChange s q.name v)).questions := hq
      exact mem_schemaErrors _ _ q f msg hq2 hval hf hnd
    have hne2 : ¬((schemaErrors
        (currentStepData e (handleInputChange s q.name v)).questions
        (handleInputChange s q.name v).formData).isEmpty = true) := by
      intro hh
      rw [List.isEmpty_iff] at hh
      rw [hh] at hmem2
      cases hmem2
    have hred : revalidateEffect e (handleInputChange s q.name v) =
        { handleInputChange s q.name v with
            errors := publishDirty (handleInputChange s q.name v).dirtyFields
              (schemaErrors
                (currentStepData e (handleInputChange s q.name v)).questions
                (handleInputChange s q.name v).formData) } := by
      simp only [revalidateEffect, hde2, Bool.false_eq_true, if_false]
      rw [if_neg hall2, if_neg hne2]
    rw [hred]
    refine publishDirty_mem _ _ _ _ hmem2 (schemaErrors_keys_nodup _ _ hnd) ?_
    show q.name ∈ addFlag s.dirtyFields q.name
    exact mem_addFlag_self _ _

/-- Witness for C7: an untouched invalid `"email"` is absent from the error
map, and appears right after an edit writes an invalid value to it. -/
theorem C7_dirty_gated_errors_witness :
    ("email", "Too short") ∈
      (revalidateEffect envEmail
        (handleInputChange { initState 0 [] with dirtyFields := ["other"] }
          "email" "")).errors :=
  (C7_dirty_gated_errors envEmail
      { initState 0 [] with dirtyFields := ["other"] } (by decide)).2.2
    "" (qNonEmpty "email") vNonEmpty "Too short"
    (show qNonEmpty "email" ∈ [qNonEmpty "email"] from List.mem_singleton_self _)
    rfl (by decide) (by decide)

end StepForm
